import Mathlib

/-!
Shallow embedding of the typestorm typing-test engine (src/app.rs, src/ui.rs).

Machine reals (`f64`) are modelled as `ℚ`; `Instant` timestamps are `ℚ`
values passed explicitly as `now` parameters; `Duration` subtraction
saturates at zero, as `Instant::duration_since` does.
-/

namespace Typestorm

/-- `Instant::duration_since` / `Instant::elapsed`: saturating subtraction. -/
def durSince (a b : ℚ) : ℚ := max (a - b) 0

/-- `enum TestMode` from src/app.rs. -/
inductive TestMode
  | Words (n : ℕ)
  | Time (s : ℕ)
  deriving DecidableEq, Repr

/-- `enum AppMode` from src/app.rs. -/
inductive AppMode
  | Welcome
  | Typing
  | Results
  | History
  | HistoryDetails
  deriving DecidableEq, Repr

/-- `impl Display for TestMode` from src/app.rs. -/
def testModeLabel : TestMode → String
  | .Words n => "Words: " ++ toString n
  | .Time s => "Time: " ++ toString s ++ "s"

/-- `struct TestResult` from src/history.rs (timestamp modelled as a ℚ clock value). -/
structure TestResult where
  timestamp : ℚ
  mode : String
  wpm : ℚ
  accuracy : ℚ
  wpm_history : List (ℚ × ℚ)
  error_points : List (ℚ × ℚ)
  deriving DecidableEq, Repr

/-- `struct App` from src/app.rs.  `history_state` keeps the `TableState`
selection (`Option usize`); strings are character lists. -/
structure App where
  running : Bool
  mode : AppMode
  input : List Char
  target_text : List Char
  start_time : Option ℚ
  end_time : Option ℚ
  cursor_position : ℕ
  test_mode : TestMode
  include_punctuation : Bool
  include_numbers : Bool
  total_correct_strokes : ℕ
  total_incorrect_strokes : ℕ
  wpm_history : List (ℚ × ℚ)
  error_points : List (ℚ × ℚ)
  last_wpm_sample : Option ℚ
  history : List TestResult
  history_state : Option ℕ
  selected_history_index : ℕ
  deriving DecidableEq, Repr

/-- `impl Default for App`. -/
def App.default : App where
  running := true
  mode := .Welcome
  input := []
  target_text := []
  start_time := none
  end_time := none
  cursor_position := 0
  test_mode := .Words 10
  include_punctuation := false
  include_numbers := false
  total_correct_strokes := 0
  total_incorrect_strokes := 0
  wpm_history := []
  error_points := []
  last_wpm_sample := none
  history := []
  history_state := none
  selected_history_index := 0

/-- `App::new`: the default state with the loaded history (the on-disk
history collaborator is external, so the loaded list is a parameter). -/
def initApp (loaded : List TestResult) : App :=
  { App.default with history := loaded }

/-- `App::calculate_wpm` (src/app.rs lines 373-389), with the caller's
`Instant::now()` passed as `now`. -/
def calculateWpm (st : App) (now : ℚ) : ℚ :=
  let dur? : Option ℚ :=
    match st.start_time, st.end_time with
    | some s, some e => some (durSince e s)
    | some s, none => some (durSince now s)
    | none, _ => none
  match dur? with
  | none => 0
  | some duration =>
    let minutes := duration / 60
    if minutes = 0 then 0
    else ((st.input.length : ℚ) / 5) / minutes

/-- `App::calculate_accuracy` (src/app.rs lines 391-397). -/
def calculateAccuracy (st : App) : ℚ :=
  let total_strokes := st.total_correct_strokes + st.total_incorrect_strokes
  if total_strokes = 0 then 100
  else ((st.total_correct_strokes : ℚ) / (total_strokes : ℚ)) * 100

/-- `App::cycle_word_mode` (src/app.rs lines 356-363). -/
def cycleWordMode (tm : TestMode) : TestMode :=
  if tm = .Words 10 then .Words 25
  else if tm = .Words 25 then .Words 50
  else if tm = .Words 50 then .Words 100
  else .Words 10

/-- `App::cycle_time_mode` (src/app.rs lines 365-371). -/
def cycleTimeMode (tm : TestMode) : TestMode :=
  if tm = .Time 15 then .Time 30
  else if tm = .Time 30 then .Time 60
  else .Time 15

/-- `App::start_typing` (src/app.rs lines 135-153).  The external word
source `words::get_random_words` is nondeterministic, so the generated
word list is a parameter; as in the source it is joined with single
spaces to form `target_text`. -/
def startTyping (st : App) (ws : List (List Char)) : App :=
  { st with
    target_text := (ws.intersperse [' ']).flatten
    input := []
    mode := .Typing
    start_time := none
    end_time := none
    cursor_position := 0
    total_correct_strokes := 0
    total_incorrect_strokes := 0
    wpm_history := []
    error_points := []
    last_wpm_sample := none }

/-- `App::save_result` (src/app.rs lines 343-354); the write to the
external history store is fire-and-forget, so only the in-memory append
is modelled.  `Local::now()` is modelled by the same clock `now`. -/
def saveResult (st : App) (now : ℚ) : App :=
  { st with
    history := st.history ++
      [{ timestamp := now
         mode := testModeLabel st.test_mode
         wpm := calculateWpm st now
         accuracy := calculateAccuracy st
         wpm_history := st.wpm_history
         error_points := st.error_points }] }

/-- `App::check_completion` (src/app.rs lines 306-341): both `TestMode`
arms have the same body in the source, kept as two arms here. -/
def checkCompletion (st : App) (now : ℚ) : App :=
  match st.test_mode with
  | .Words _ =>
    if st.target_text.length ≤ st.input.length then
      let st1 := { st with end_time := some now }
      let st2 :=
        match st1.start_time with
        | some start =>
          let elapsed := durSince now start
          if 1 ≤ elapsed then
            { st1 with wpm_history := st1.wpm_history ++ [(elapsed, calculateWpm st1 now)] }
          else st1
        | none => st1
      { saveResult st2 now with mode := .Results }
    else st
  | .Time _ =>
    if st.target_text.length ≤ st.input.length then
      let st1 := { st with end_time := some now }
      let st2 :=
        match st1.start_time with
        | some start =>
          let elapsed := durSince now start
          if 1 ≤ elapsed then
            { st1 with wpm_history := st1.wpm_history ++ [(elapsed, calculateWpm st1 now)] }
          else st1
        | none => st1
      { saveResult st2 now with mode := .Results }
    else st

/-- The mutation part of the `KeyCode::Char(c)` branch of
`handle_key_event` in Typing mode (src/app.rs lines 231-262): lazy timer
start, stroke classification, error-point recording, input append and
cursor advance. -/
def charStep (st : App) (c : Char) (now : ℚ) : App :=
  let st0 := if st.start_time = none then { st with start_time := some now } else st
  let st1 :=
    match st0.target_text[st0.cursor_position]? with
    | some tc =>
      if c = tc then
        { st0 with total_correct_strokes := st0.total_correct_strokes + 1 }
      else
        let sti := { st0 with total_incorrect_strokes := st0.total_incorrect_strokes + 1 }
        match sti.start_time with
        | some start =>
          { sti with error_points :=
              sti.error_points ++ [(durSince now start, calculateWpm sti now)] }
        | none => sti
    | none =>
      let sti := { st0 with total_incorrect_strokes := st0.total_incorrect_strokes + 1 }
      match sti.start_time with
      | some start =>
        { sti with error_points :=
            sti.error_points ++ [(durSince now start, calculateWpm sti now)] }
      | none => sti
  let st2 := { st1 with input := st1.input ++ [c], cursor_position := st1.cursor_position + 1 }
  st2

/-- The full `KeyCode::Char(c)` branch (src/app.rs lines 231-264): the
mutation step followed by the completion check of line 263. -/
def handleChar (st : App) (c : Char) (now : ℚ) : App :=
  checkCompletion (charStep st c now) now

/-- The backward scan `for i in (0..input.len()-1).rev()` of
src/app.rs lines 274-279, checking index `i` and counting down. -/
def startIdxAux (input : List Char) : ℕ → ℕ
  | 0 => if input[0]? = some ' ' then 1 else 0
  | i + 1 => if input[i + 1]? = some ' ' then i + 2 else startIdxAux input i

/-- The `start_idx` computation of src/app.rs lines 271-280: the index
just after the last space strictly before the final character, or 0. -/
def startIdx (input : List Char) : ℕ :=
  if 1 < input.length then startIdxAux input (input.length - 2) else 0

/-- Rust's `str::get(a..b)`: `some` slice iff the range is well formed
and in bounds (character boundaries are trivial in this model). -/
def rustSliceGet (s : List Char) (a b : ℕ) : Option (List Char) :=
  if a ≤ b ∧ b ≤ s.length then some ((s.drop a).take (b - a)) else none

/-- The word-boundary lock test of src/app.rs lines 268-289: the last
typed character is a space and the just-finished segment of `input`
equals the same-index slice of `target_text` (`unwrap_or("")` on an
out-of-range slice). -/
def backspaceBlocked (st : App) : Bool :=
  match st.input.getLast? with
  | some lastChar =>
    if lastChar = ' ' then
      let si := startIdx st.input
      let currentSegment := st.input.drop si
      let targetSegment := (rustSliceGet st.target_text si st.input.length).getD []
      currentSegment == targetSegment
    else false
  | none => false

/-- The `KeyCode::Backspace` branch of `handle_key_event` in Typing mode
(src/app.rs lines 265-294): no-op on empty input, no mutation when the
word-boundary lock fires, otherwise pop one character. -/
def handleBackspace (st : App) : App :=
  if st.input = [] then st
  else if backspaceBlocked st then st
  else { st with input := st.input.dropLast, cursor_position := st.cursor_position - 1 }

/-- The `crossterm` key codes the handler inspects. -/
inductive KeyCode
  | Char (c : Char)
  | Esc
  | Enter
  | Backspace
  | Up
  | Down
  | Other
  deriving DecidableEq, Repr

/-- `App::handle_key_event` (src/app.rs lines 164-304).  `now` stands for
`Instant::now()` at the time of the event and `ws` for the word list the
external generator would return if `start_typing` runs. -/
def handleKeyEvent (st : App) (k : KeyCode) (now : ℚ) (ws : List (List Char)) : App :=
  match st.mode with
  | .Welcome =>
    match k with
    | .Esc => { st with running := false }
    | .Enter => startTyping st ws
    | .Char c =>
      if c = 'q' then { st with running := false }
      else if c = 'w' then { st with test_mode := cycleWordMode st.test_mode }
      else if c = 't' then { st with test_mode := cycleTimeMode st.test_mode }
      else if c = 'p' then { st with include_punctuation := !st.include_punctuation }
      else if c = 'n' then { st with include_numbers := !st.include_numbers }
      else if c = 'h' then
        { st with mode := .History, history_state := some 0, selected_history_index := 0 }
      else st
    | _ => st
  | .History =>
    match k with
    | .Esc => { st with mode := .Welcome }
    | .Up =>
      if st.history ≠ [] then
        let i := match st.history_state with
          | some i => if i = 0 then st.history.length - 1 else i - 1
          | none => 0
        { st with history_state := some i, selected_history_index := i }
      else st
    | .Down =>
      if st.history ≠ [] then
        let i := match st.history_state with
          | some i => if st.history.length - 1 ≤ i then 0 else i + 1
          | none => 0
        { st with history_state := some i, selected_history_index := i }
      else st
    | .Enter => if st.history ≠ [] then { st with mode := .HistoryDetails } else st
    | .Char c =>
      if c = 'q' then { st with mode := .Welcome }
      else if c = 'k' then
        (if st.history ≠ [] then
          let i := match st.history_state with
            | some i => if i = 0 then st.history.length - 1 else i - 1
            | none => 0
          { st with history_state := some i, selected_history_index := i }
        else st)
      else if c = 'j' then
        (if st.history ≠ [] then
          let i := match st.history_state with
            | some i => if st.history.length - 1 ≤ i then 0 else i + 1
            | none => 0
          { st with history_state := some i, selected_history_index := i }
        else st)
      else st
    | _ => st
  | .HistoryDetails =>
    match k with
    | .Esc => { st with mode := .History }
    | .Backspace => { st with mode := .History }
    | .Char c => if c = 'q' then { st with mode := .History } else st
    | _ => st
  | .Typing =>
    match k with
    | .Esc => { st with mode := .Welcome, start_time := none }
    | .Char c => handleChar st c now
    | .Backspace => handleBackspace st
    | _ => st
  | .Results =>
    match k with
    | .Esc => { st with running := false }
    | .Enter => startTyping st ws
    | .Char c =>
      if c = 'q' then { st with running := false }
      else if c = 'r' then startTyping st ws
      else st
    | _ => st

/-- `App::tick` (src/app.rs lines 94-133).  `Duration::as_secs` truncates
to whole seconds, modelled by the integer floor. -/
def tick (st : App) (now : ℚ) : App :=
  if st.mode = .Typing then
    let st1 :=
      match st.start_time with
      | some start =>
        let elapsed := durSince now start
        if 1 ≤ elapsed then
          let shouldSample :=
            match st.last_wpm_sample with
            | none => true
            | some last => 1 ≤ durSince now last
          if shouldSample then
            { st with
              wpm_history := st.wpm_history ++ [(elapsed, calculateWpm st now)]
              last_wpm_sample := some now }
          else st
        else st
      | none => st
    match st1.test_mode with
    | .Time duration =>
      match st1.start_time with
      | some start =>
        if (duration : ℤ) ≤ ⌊durSince now start⌋ then
          let st2 := { st1 with end_time := some now }
          let elapsed := durSince now start
          let st3 :=
            if 1 ≤ elapsed then
              { st2 with wpm_history := st2.wpm_history ++ [(elapsed, calculateWpm st2 now)] }
            else st2
          { saveResult st3 now with mode := .Results }
        else st1
      | none => st1
    | .Words _ => st1
  else st

/-- One engine step: a polled key event or a timer tick, with the event
time and (for key events) the word-generator output chosen arbitrarily. -/
inductive Step : App → App → Prop
  | key (st : App) (k : KeyCode) (now : ℚ) (ws : List (List Char)) :
      Step st (handleKeyEvent st k now ws)
  | tick (st : App) (now : ℚ) :
      Step st (tick st now)

/-- States reachable from startup with an arbitrary loaded history. -/
def Reachable (loaded : List TestResult) (st : App) : Prop :=
  Relation.ReflTransGen Step (initApp loaded) st

/-! ## Curve synthesis (src/ui.rs, `render_performance_view`) -/

/-- One Catmull-Rom coordinate, the `x`/`y` formula of src/ui.rs
lines 380-392. -/
def catmullRomCoord (p0 p1 p2 p3 t : ℚ) : ℚ :=
  (1 / 2) * ((2 * p1) + (-p0 + p2) * t
    + (2 * p0 - 5 * p1 + 4 * p2 - p3) * (t * t)
    + (-p0 + 3 * p1 - 3 * p2 + p3) * (t * t * t))

/-- The inner `for t_step in 0..resolution` loop of `interpolate_data`
for segment `i`, with the window clamping of src/ui.rs lines 370-373. -/
def segmentPoints (data : List (ℚ × ℚ)) (i : ℕ) (resolution : ℕ) : List (ℚ × ℚ) :=
  let p0 := if i = 0 then data.getD 0 (0, 0) else data.getD (i - 1) (0, 0)
  let p1 := data.getD i (0, 0)
  let p2 := data.getD (i + 1) (0, 0)
  let p3 := if i + 2 < data.length then data.getD (i + 2) (0, 0) else p2
  (List.range resolution).map fun tstep =>
    let t : ℚ := (tstep : ℚ) / (resolution : ℚ)
    (catmullRomCoord p0.1 p1.1 p2.1 p3.1 t, catmullRomCoord p0.2 p1.2 p2.2 p3.2 t)

/-- `interpolate_data` (src/ui.rs lines 362-402). -/
def interpolateData (data : List (ℚ × ℚ)) (resolution : ℕ) : List (ℚ × ℚ) :=
  if data.length < 2 then data
  else
    ((List.range (data.length - 1)).flatMap fun i => segmentPoints data i resolution)
      ++ (match data.getLast? with
          | some last => [last]
          | none => [])

/-- The error-bin width `bin_size = 1.5` of src/ui.rs line 410. -/
def binSize : ℚ := 3 / 2

/-- `max_time` (src/ui.rs line 407): last raw sample time, defaulting to
60 and clamped to at least 1. -/
def maxTimeOf (rawWpmData : List (ℚ × ℚ)) : ℚ :=
  max ((rawWpmData.getLast?.map Prod.fst).getD 60) 1

/-- `num_bins` (src/ui.rs line 411); `as usize` on a non-negative value
is `Int.toNat`. -/
def numBinsOf (rawWpmData : List (ℚ × ℚ)) : ℕ :=
  (⌈maxTimeOf rawWpmData / binSize⌉).toNat + 1

/-- `bin_index` for one error point (src/ui.rs line 415); the `as usize`
cast saturates negative values to 0. -/
def binIndexOf (t : ℚ) : ℕ := (⌊t / binSize⌋).toNat

/-- The body of the bin-filling loop (src/ui.rs lines 414-419): place
one error point into its bin, dropping out-of-range indices. -/
def binStep (numBins : ℕ) (bins : List ℕ) (p : ℚ × ℚ) : List ℕ :=
  if binIndexOf p.1 < numBins then
    bins.set (binIndexOf p.1) (bins.getD (binIndexOf p.1) 0 + 1)
  else bins

/-- The bin-filling loop of src/ui.rs lines 412-419. -/
def buildBins (numBins : ℕ) (errorPoints : List (ℚ × ℚ)) : List ℕ :=
  errorPoints.foldl (binStep numBins) (List.replicate numBins 0)

/-- `max_error_count` (src/ui.rs line 421). -/
def maxErrorCount (bins : List ℕ) : ℕ := bins.foldl max 0

/-- `max_wpm` (src/ui.rs line 422): fold of `f64::max` over the smoothed
WPM data, clamped to at least 10. -/
def maxWpmOf (wpmData : List (ℚ × ℚ)) : ℚ :=
  max (wpmData.foldl (fun acc p => max acc p.2) 0) 10

/-- `error_data` (src/ui.rs lines 424-435): enumerate the bins, keep the
non-empty ones, place each at its bin start time, normalized by
`(count / max_error_count) * max_wpm`. -/
def errorData (wpmData rawWpmData errorPoints : List (ℚ × ℚ)) : List (ℚ × ℚ) :=
  (((buildBins (numBinsOf rawWpmData) errorPoints).enum).filter fun p => 0 < p.2).map fun p =>
    ((p.1 : ℚ) * binSize,
      if 0 < (maxErrorCount (buildBins (numBinsOf rawWpmData) errorPoints) : ℚ) then
        ((p.2 : ℚ) / (maxErrorCount (buildBins (numBinsOf rawWpmData) errorPoints) : ℚ)) *
          maxWpmOf wpmData
      else 0)

/-! ## Specification-side definitions -/

/-- The WPM formula as §4.4 of the spec states it, as a function of the
input length and the already-selected duration. -/
def wpmSpec (len : ℕ) (duration : ℚ) : ℚ :=
  if duration / 60 = 0 then 0 else ((len : ℚ) / 5) / (duration / 60)

/-! ## Theorems -/

/-- C5: `calculate_accuracy` is 100 with zero total strokes, otherwise
`100 × correct / (correct + incorrect)`, and always lies in `[0, 100]`. -/
theorem accuracy_formula_and_bounds (st : App) :
    calculateAccuracy st =
      (if st.total_correct_strokes + st.total_incorrect_strokes = 0 then 100
       else 100 * (st.total_correct_strokes : ℚ) /
         ((st.total_correct_strokes + st.total_incorrect_strokes : ℕ) : ℚ)) ∧
    0 ≤ calculateAccuracy st ∧ calculateAccuracy st ≤ 100 := by
  unfold calculateAccuracy
  by_cases h : st.total_correct_strokes + st.total_incorrect_strokes = 0
  · simp [h]
  · have ht : (0 : ℚ) < ((st.total_correct_strokes + st.total_incorrect_strokes : ℕ) : ℚ) := by
      exact_mod_cast Nat.pos_of_ne_zero h
    have hle : ((st.total_correct_strokes : ℕ) : ℚ) ≤
        ((st.total_correct_strokes + st.total_incorrect_strokes : ℕ) : ℚ) := by
      exact_mod_cast Nat.le_add_right _ _
    refine ⟨?_, ?_, ?_⟩
    · simp only [h, if_false]
      rw [div_mul_eq_mul_div, mul_comm]
    · simp only [h, if_false]
      positivity
    · simp only [h, if_false]
      calc ((st.total_correct_strokes : ℚ) /
            ((st.total_correct_strokes + st.total_incorrect_strokes : ℕ) : ℚ)) * 100
          ≤ 1 * 100 := by
            apply mul_le_mul_of_nonneg_right _ (by norm_num)
            exact (div_le_one ht).mpr hle
        _ = 100 := by norm_num

/-- C10: cycling the word-count target from any mode outside
`{Words 10, Words 25, Words 50}` yields `Words 10`, and cycling the
time-limit target from any mode outside `{Time 15, Time 30}` yields
`Time 15`. -/
theorem cycle_mode_fallback (tm : TestMode) :
    (tm ≠ .Words 10 → tm ≠ .Words 25 → tm ≠ .Words 50 → cycleWordMode tm = .Words 10) ∧
    (tm ≠ .Time 15 → tm ≠ .Time 30 → cycleTimeMode tm = .Time 15) := by
  constructor
  · intro h10 h25 h50
    unfold cycleWordMode
    simp [h10, h25, h50]
  · intro h15 h30
    unfold cycleTimeMode
    simp [h15, h30]

/-- Witness for `cycle_mode_fallback`: cycling words from a time mode
jumps to `Words 10`, cycling time from a word mode jumps to `Time 15`. -/
theorem cycle_mode_fallback_witness :
    cycleWordMode (.Time 15) = .Words 10 ∧ cycleTimeMode (.Words 10) = .Time 15 :=
  ⟨(cycle_mode_fallback (.Time 15)).1 (by decide) (by decide) (by decide),
   (cycle_mode_fallback (.Words 10)).2 (by decide) (by decide)⟩

/-- C4: `calculate_wpm` is 0 without a start time; with both timestamps
it uses `end − start`, with only a start it uses `now − start`, in both
cases via the §4.4 formula; and it is never negative. -/
theorem wpm_formula (st : App) (now : ℚ) :
    (st.start_time = none → calculateWpm st now = 0) ∧
    (∀ s e, st.start_time = some s → st.end_time = some e →
      calculateWpm st now = wpmSpec st.input.length (durSince e s)) ∧
    (∀ s, st.start_time = some s → st.end_time = none →
      calculateWpm st now = wpmSpec st.input.length (durSince now s)) ∧
    0 ≤ calculateWpm st now := by
  unfold calculateWpm wpmSpec
  rcases hs : st.start_time with _ | s <;> rcases he : st.end_time with _ | e <;>
    simp only [hs, he] <;>
    refine ⟨by simp_all, by simp_all, by simp_all, ?_⟩
  · norm_num
  · norm_num
  · -- only start_time set: duration is now − start
    by_cases hm : durSince now s / 60 = 0
    · simp [hm]
    · have hdn : 0 ≤ durSince now s := le_max_right _ _
      have hpos : 0 < durSince now s / 60 :=
        lt_of_le_of_ne (by positivity) (Ne.symm hm)
      simp only [hm, if_false]
      positivity
  · -- both set: duration is end − start
    by_cases hm : durSince e s / 60 = 0
    · simp [hm]
    · have hdn : 0 ≤ durSince e s := le_max_right _ _
      have hpos : 0 < durSince e s / 60 :=
        lt_of_le_of_ne (by positivity) (Ne.symm hm)
      simp only [hm, if_false]
      positivity

/-- Scenario B state: "hello world" typed over exactly 60 seconds. -/
def stScenarioB : App :=
  { App.default with
    mode := .Results
    input := "hello world".toList
    cursor_position := 11
    start_time := some 0
    end_time := some 60 }

/-- Witness for `wpm_formula` at Scenario B of the spec. -/
theorem wpm_formula_witness :
    calculateWpm stScenarioB 60 = wpmSpec stScenarioB.input.length (durSince 60 0) ∧
    0 ≤ calculateWpm stScenarioB 60 :=
  ⟨(wpm_formula stScenarioB 60).2.1 0 60 rfl rfl, (wpm_formula stScenarioB 60).2.2.2⟩

/-- C8: `interpolate_data` returns fewer-than-2-point inputs unchanged,
and on 2 or more points the smoothed output's last point is exactly the
input's last point (the final raw point is appended verbatim after the
Catmull-Rom segments). -/
theorem interpolate_endpoints (data : List (ℚ × ℚ)) (resolution : ℕ) :
    (data.length < 2 → interpolateData data resolution = data) ∧
    (2 ≤ data.length → (interpolateData data resolution).getLast? = data.getLast?) := by
  constructor
  · intro h
    unfold interpolateData
    simp [h]
  · intro h
    have hnot : ¬ data.length < 2 := not_lt.mpr h
    have hne : data ≠ [] := by
      intro hnil
      rw [hnil] at h
      simp at h
    rcases hl : data.getLast? with _ | last
    · exact absurd (List.getLast?_eq_none_iff.mp hl) hne
    · unfold interpolateData
      simp only [hnot, if_false, hl]
      exact List.getLast?_concat _

/-- Witness for `interpolate_endpoints`: a one-point series is returned
unchanged, and a two-point series keeps its final point. -/
theorem interpolate_endpoints_witness :
    interpolateData [((5 : ℚ), (7 : ℚ))] 20 = [((5 : ℚ), (7 : ℚ))] ∧
    (interpolateData [((0 : ℚ), (0 : ℚ)), ((1 : ℚ), (3 : ℚ))] 20).getLast? =
      [((0 : ℚ), (0 : ℚ)), ((1 : ℚ), (3 : ℚ))].getLast? :=
  ⟨(interpolate_endpoints [((5 : ℚ), (7 : ℚ))] 20).1 (by decide),
   (interpolate_endpoints [((0 : ℚ), (0 : ℚ)), ((1 : ℚ), (3 : ℚ))] 20).2 (by decide)⟩

/-! ### Helper frame lemmas for the keystroke handlers -/

/-- `check_completion` never touches the input, cursor, stroke counters,
error points, start time, target text or test mode. -/
theorem checkCompletion_frame (st : App) (now : ℚ) :
    (checkCompletion st now).input = st.input ∧
    (checkCompletion st now).cursor_position = st.cursor_position ∧
    (checkCompletion st now).total_correct_strokes = st.total_correct_strokes ∧
    (checkCompletion st now).total_incorrect_strokes = st.total_incorrect_strokes ∧
    (checkCompletion st now).error_points = st.error_points ∧
    (checkCompletion st now).start_time = st.start_time ∧
    (checkCompletion st now).target_text = st.target_text ∧
    (checkCompletion st now).test_mode = st.test_mode := by
  unfold checkCompletion saveResult
  rcases htm : st.test_mode with n | s <;>
    rcases hst : st.start_time with _ | s0 <;>
    simp only [htm, hst] <;> split_ifs <;> simp [htm, hst]

/-- `handle_char`: the typed character is appended, the cursor advances,
the timer is running afterwards, and exactly one stroke counter grows. -/
theorem handleChar_core (st : App) (c : Char) (now : ℚ) :
    (handleChar st c now).input = st.input ++ [c] ∧
    (handleChar st c now).cursor_position = st.cursor_position + 1 ∧
    (handleChar st c now).target_text = st.target_text ∧
    (handleChar st c now).start_time =
      (match st.start_time with | none => some now | some s => some s) ∧
    (handleChar st c now).total_correct_strokes + (handleChar st c now).total_incorrect_strokes
      = st.total_correct_strokes + st.total_incorrect_strokes + 1 := by
  unfold handleChar charStep
  rcases hs : st.start_time with _ | s <;>
    rcases ht : st.target_text[st.cursor_position]? with _ | tc
  · simp [hs, ht, checkCompletion_frame]; omega
  · by_cases hc : c = tc <;> simp [hs, ht, hc, checkCompletion_frame] <;> omega
  · simp [hs, ht, checkCompletion_frame]; omega
  · by_cases hc : c = tc <;> simp [hs, ht, hc, checkCompletion_frame] <;> omega

/-- In Typing mode a character key is handled by the character branch. -/
theorem handleKeyEvent_typing_char (st : App) (c : Char) (now : ℚ)
    (ws : List (List Char)) (hm : st.mode = AppMode.Typing) :
    handleKeyEvent st (.Char c) now ws = handleChar st c now := by
  unfold handleKeyEvent
  rw [hm]

/-- In Typing mode the backspace key is handled by the backspace branch. -/
theorem handleKeyEvent_typing_backspace (st : App) (now : ℚ)
    (ws : List (List Char)) (hm : st.mode = AppMode.Typing) :
    handleKeyEvent st .Backspace now ws = handleBackspace st := by
  unfold handleKeyEvent
  rw [hm]

/-- `handle_backspace` never touches the mode, timers, target, stroke
counters, error points, WPM samples or history. -/
theorem handleBackspace_frame (st : App) :
    (handleBackspace st).mode = st.mode ∧
    (handleBackspace st).target_text = st.target_text ∧
    (handleBackspace st).start_time = st.start_time ∧
    (handleBackspace st).end_time = st.end_time ∧
    (handleBackspace st).total_correct_strokes = st.total_correct_strokes ∧
    (handleBackspace st).total_incorrect_strokes = st.total_incorrect_strokes ∧
    (handleBackspace st).error_points = st.error_points ∧
    (handleBackspace st).wpm_history = st.wpm_history ∧
    (handleBackspace st).history = st.history ∧
    (handleBackspace st).test_mode = st.test_mode := by
  unfold handleBackspace
  split_ifs <;> simp

/-- C6: in Typing mode every character keystroke increments exactly one
stroke counter: the correct one iff the character matches `target_text`
at `cursor_position`, the incorrect one on mismatch, and unconditionally
the incorrect one past the end of `target_text`. -/
theorem char_stroke_classification (st : App) (c : Char) (now : ℚ)
    (ws : List (List Char)) (hm : st.mode = AppMode.Typing) :
    (st.target_text[st.cursor_position]? = some c →
      (handleKeyEvent st (.Char c) now ws).total_correct_strokes
          = st.total_correct_strokes + 1 ∧
      (handleKeyEvent st (.Char c) now ws).total_incorrect_strokes
          = st.total_incorrect_strokes) ∧
    (∀ tc, st.target_text[st.cursor_position]? = some tc → c ≠ tc →
      (handleKeyEvent st (.Char c) now ws).total_correct_strokes
          = st.total_correct_strokes ∧
      (handleKeyEvent st (.Char c) now ws).total_incorrect_strokes
          = st.total_incorrect_strokes + 1) ∧
    (st.target_text[st.cursor_position]? = none →
      (handleKeyEvent st (.Char c) now ws).total_correct_strokes
          = st.total_correct_strokes ∧
      (handleKeyEvent st (.Char c) now ws).total_incorrect_strokes
          = st.total_incorrect_strokes + 1) := by
  rw [handleKeyEvent_typing_char st c now ws hm]
  unfold handleChar charStep
  rcases hs : st.start_time with _ | s <;>
    rcases ht : st.target_text[st.cursor_position]? with _ | tc
  · simp [hs, ht, checkCompletion_frame]
  · rcases Decidable.em (c = tc) with hc | hc
    · simp [hs, ht, hc, checkCompletion_frame]
    · simp [hs, ht, hc, Ne.symm hc, checkCompletion_frame]
  · simp [hs, ht, checkCompletion_frame]
  · rcases Decidable.em (c = tc) with hc | hc
    · simp [hs, ht, hc, checkCompletion_frame]
    · simp [hs, ht, hc, Ne.symm hc, checkCompletion_frame]

/-- A Typing-mode state on "hello", cursor at position 2. -/
def stScenarioA : App :=
  { App.default with
    mode := .Typing
    target_text := "hello".toList
    input := "he".toList
    cursor_position := 2
    start_time := some 0
    total_correct_strokes := 2 }

/-- Witness for `char_stroke_classification`: typing the wrong character
at position 2 of "hello" increments only the incorrect counter. -/
theorem char_stroke_classification_witness :
    (handleKeyEvent stScenarioA (.Char 'x') 0 []).total_correct_strokes
        = stScenarioA.total_correct_strokes ∧
    (handleKeyEvent stScenarioA (.Char 'x') 0 []).total_incorrect_strokes
        = stScenarioA.total_incorrect_strokes + 1 :=
  (char_stroke_classification stScenarioA 'x' 0 [] rfl).2.1 'l' (by decide) (by decide)

/-- C7: a Typing-mode backspace, blocked or not, leaves the stroke
counters and recorded error points unchanged, and a character typed
right after it still increments exactly one counter. -/
theorem backspace_preserves_audit_trail (st : App) (now now2 : ℚ)
    (ws ws2 : List (List Char)) (c : Char) (hm : st.mode = AppMode.Typing) :
    (handleKeyEvent st .Backspace now ws).total_correct_strokes
        = st.total_correct_strokes ∧
    (handleKeyEvent st .Backspace now ws).total_incorrect_strokes
        = st.total_incorrect_strokes ∧
    (handleKeyEvent st .Backspace now ws).error_points = st.error_points ∧
    (handleKeyEvent (handleKeyEvent st .Backspace now ws) (.Char c) now2 ws2).total_correct_strokes
        + (handleKeyEvent (handleKeyEvent st .Backspace now ws) (.Char c) now2 ws2).total_incorrect_strokes
      = st.total_correct_strokes + st.total_incorrect_strokes + 1 := by
  rw [handleKeyEvent_typing_backspace st now ws hm]
  have hbm : (handleBackspace st).mode = AppMode.Typing :=
    (handleBackspace_frame st).1.trans hm
  rw [handleKeyEvent_typing_char _ c now2 ws2 hbm]
  refine ⟨(handleBackspace_frame st).2.2.2.2.1, (handleBackspace_frame st).2.2.2.2.2.1,
    (handleBackspace_frame st).2.2.2.2.2.2.1, ?_⟩
  rw [(handleChar_core (handleBackspace st) c now2).2.2.2.2,
    (handleBackspace_frame st).2.2.2.2.1, (handleBackspace_frame st).2.2.2.2.2.1]

/-- Witness for `backspace_preserves_audit_trail` at the Scenario A
state: backspacing then retyping leaves counters append-only. -/
theorem backspace_preserves_audit_trail_witness :
    (handleKeyEvent stScenarioA .Backspace 0 []).total_correct_strokes
        = stScenarioA.total_correct_strokes ∧
    (handleKeyEvent stScenarioA .Backspace 0 []).total_incorrect_strokes
        = stScenarioA.total_incorrect_strokes ∧
    (handleKeyEvent stScenarioA .Backspace 0 []).error_points = stScenarioA.error_points ∧
    (handleKeyEvent (handleKeyEvent stScenarioA .Backspace 0 []) (.Char 'e') 1 []).total_correct_strokes
        + (handleKeyEvent (handleKeyEvent stScenarioA .Backspace 0 []) (.Char 'e') 1 []).total_incorrect_strokes
      = stScenarioA.total_correct_strokes + stScenarioA.total_incorrect_strokes + 1 :=
  backspace_preserves_audit_trail stScenarioA 0 1 [] [] 'e' rfl

/-! ### The word-boundary lock, claim-side characterization -/

/-- The previous word boundary as the spec describes it: the index just
after the last space among all input characters before the final one
(equivalently, the length of the shortened input minus its trailing run
of non-space characters). -/
def prevWordBoundary (input : List Char) : ℕ :=
  input.dropLast.length - (input.dropLast.reverse.takeWhile fun ch => ch ≠ ' ').length

/-- The claim's blocking condition: the just-completed segment of input
from the previous word boundary equals the target slice at the same
indices of equal length. -/
def completedWordMatches (input target : List Char) : Prop :=
  input.drop (prevWordBoundary input) =
    (target.drop (prevWordBoundary input)).take (input.length - prevWordBoundary input)

instance (input target : List Char) : Decidable (completedWordMatches input target) := by
  unfold completedWordMatches
  exact inferInstance

/-- The backward space scan computes: one past position of the last
space within the first `i + 1` characters, or 0 when there is none. -/
theorem startIdxAux_eq (l : List Char) (i : ℕ) (hi : i < l.length) :
    startIdxAux l i =
      (i + 1) - ((l.take (i + 1)).reverse.takeWhile fun ch => ch ≠ ' ').length := by
  induction i with
  | zero =>
    rcases l with _ | ⟨a, t⟩
    · simp at hi
    · by_cases ha : a = ' ' <;> simp [startIdxAux, ha]
  | succ i ih =>
    have hi' : i < l.length := Nat.lt_of_succ_lt hi
    have hget : l[i + 1]? = some (l.get ⟨i + 1, hi⟩) := by
      rw [List.getElem?_eq_getElem hi, List.get_eq_getElem]
    have htake : l.take (i + 1 + 1) = l.take (i + 1) ++ [l.get ⟨i + 1, hi⟩] := by
      rw [List.take_succ, hget]
      rfl
    have hrun : ((l.take (i + 1)).reverse.takeWhile fun ch => ch ≠ ' ').length ≤ i + 1 := by
      calc ((l.take (i + 1)).reverse.takeWhile fun ch => ch ≠ ' ').length
          ≤ (l.take (i + 1)).reverse.length :=
            (List.takeWhile_sublist _).length_le
        _ = (l.take (i + 1)).length := List.length_reverse _
        _ ≤ i + 1 := by
            rw [List.length_take]
            exact min_le_left _ _
    have hrev : (l.take (i + 1 + 1)).reverse
        = l.get ⟨i + 1, hi⟩ :: (l.take (i + 1)).reverse := by
      rw [htake, List.reverse_append]
      rfl
    by_cases hsp : l.get ⟨i + 1, hi⟩ = ' '
    · rw [startIdxAux, hget, hsp, if_pos rfl, hrev, List.takeWhile_cons, hsp]
      simp
      try omega
    · rw [startIdxAux, hget]
      rw [if_neg (fun h => hsp (Option.some.inj h))]
      rw [ih hi', hrev, List.takeWhile_cons, if_pos (by simpa using hsp)]
      simp only [List.length_cons]
      omega

/-- The code's `start_idx` equals the claim's previous word boundary. -/
theorem startIdx_eq_prevWordBoundary (input : List Char) :
    startIdx input = prevWordBoundary input := by
  unfold startIdx prevWordBoundary
  by_cases h : 1 < input.length
  · rw [if_pos h, startIdxAux_eq input (input.length - 2) (by omega)]
    have h2 : input.length - 2 + 1 = input.length - 1 := by omega
    rw [h2, ← List.dropLast_eq_take, List.length_dropLast]
  · rw [if_neg h]
    have : input.dropLast.length = input.length - 1 := List.length_dropLast _
    interval_cases hl : input.length
    all_goals omega

/-- The previous word boundary lies strictly before the input's end. -/
theorem prevWordBoundary_lt (input : List Char) (hne : input ≠ []) :
    prevWordBoundary input < input.length := by
  have hlen : 0 < input.length := List.length_pos.mpr hne
  have : prevWordBoundary input ≤ input.dropLast.length := Nat.sub_le _ _
  have hd : input.dropLast.length = input.length - 1 := List.length_dropLast _
  omega

/-- The code's segment comparison (with `unwrap_or("")` on an
out-of-range target slice) agrees with the claim's equal-length slice
comparison. -/
theorem blocked_iff_matches (input target : List Char) (hne : input ≠ []) :
    ((input.drop (startIdx input) ==
      (rustSliceGet target (startIdx input) input.length).getD []) = true) ↔
    completedWordMatches input target := by
  rw [beq_iff_eq, startIdx_eq_prevWordBoundary]
  have hsi : prevWordBoundary input < input.length := prevWordBoundary_lt input hne
  unfold completedWordMatches rustSliceGet
  by_cases hlen : input.length ≤ target.length
  · rw [if_pos ⟨le_of_lt hsi, hlen⟩]
    rfl
  · rw [if_neg (by omega)]
    simp only [Option.getD_none]
    constructor
    · intro h
      have := congrArg List.length h
      simp only [List.length_drop, List.length_nil] at this
      omega
    · intro h
      have := congrArg List.length h
      simp only [List.length_drop, List.length_take] at this
      omega

/-- C1: for a Typing-mode backspace, with non-empty input ending in a
space, the event is blocked (input and cursor unchanged) iff the
just-completed segment equals the same-index target slice; in every
other non-empty case the last character is removed and the cursor
decremented; with empty input it is a no-op. -/
theorem backspace_word_lock (st : App) (now : ℚ) (ws : List (List Char))
    (hm : st.mode = AppMode.Typing) :
    (st.input = [] → handleKeyEvent st .Backspace now ws = st) ∧
    (st.input ≠ [] → st.input.getLast? = some ' ' →
      (((handleKeyEvent st .Backspace now ws).input = st.input ∧
        (handleKeyEvent st .Backspace now ws).cursor_position = st.cursor_position) ↔
        completedWordMatches st.input st.target_text) ∧
      (¬ completedWordMatches st.input st.target_text →
        (handleKeyEvent st .Backspace now ws).input = st.input.dropLast ∧
        (handleKeyEvent st .Backspace now ws).cursor_position = st.cursor_position - 1)) ∧
    (st.input ≠ [] → st.input.getLast? ≠ some ' ' →
      (handleKeyEvent st .Backspace now ws).input = st.input.dropLast ∧
      (handleKeyEvent st .Backspace now ws).cursor_position = st.cursor_position - 1) := by
  rw [handleKeyEvent_typing_backspace st now ws hm]
  unfold handleBackspace backspaceBlocked
  refine ⟨fun h => by simp [h], fun hne hlast => ?_, fun hne hlast => ?_⟩
  · rw [hlast, if_neg hne]
    simp only [eq_self_iff_true, if_true]
    by_cases hb : completedWordMatches st.input st.target_text
    · rw [if_pos ((blocked_iff_matches st.input st.target_text hne).mpr hb)]
      simp [hb]
    · rw [if_neg (fun hc => hb ((blocked_iff_matches st.input st.target_text hne).mp hc))]
      have hdl : st.input.dropLast ≠ st.input := by
        intro hEq
        have := congrArg List.length hEq
        rw [List.length_dropLast] at this
        have hlen : 0 < st.input.length := List.length_pos.mpr hne
        omega
      constructor
      · constructor
        · intro hin
          exact absurd hin.1 hdl
        · intro hmt
          exact absurd hmt hb
      · intro _
        exact ⟨rfl, rfl⟩
  · rw [if_neg hne]
    rcases hgl : st.input.getLast? with _ | c
    · exact absurd (List.getLast?_eq_none_iff.mp hgl) hne
    · have hc : ¬ c = ' ' := fun h => hlast (by rw [hgl, h])
      simp only [if_neg hc]
      exact ⟨rfl, rfl⟩

/-- Scenario C state: target "hello world", input "hello " just typed. -/
def stScenarioC : App :=
  { App.default with
    mode := .Typing
    target_text := "hello world".toList
    input := "hello ".toList
    cursor_position := 6 }

/-- Witness for `backspace_word_lock`: at Scenario C the backspace after
a correctly typed word plus space is blocked. -/
theorem backspace_word_lock_witness :
    (handleKeyEvent stScenarioC .Backspace 0 []).input = stScenarioC.input ∧
    (handleKeyEvent stScenarioC .Backspace 0 []).cursor_position = stScenarioC.cursor_position :=
  ((backspace_word_lock stScenarioC 0 [] rfl).2.1 (by decide) (by decide)).1.mpr (by decide)

/-- When the input has not yet reached the target length,
`check_completion` changes nothing, in either test mode. -/
theorem checkCompletion_not_done (st : App) (now : ℚ)
    (h : st.input.length < st.target_text.length) :
    checkCompletion st now = st := by
  unfold checkCompletion
  rcases htm : st.test_mode with n | n <;> simp only [htm] <;>
    rw [if_neg (not_le.mpr h)]

/-- When the input has reached the target length, `check_completion`
moves to Results, sets `end_time`, appends one history entry, and adds a
final WPM sample exactly when at least one second has elapsed. -/
theorem checkCompletion_done (st : App) (now : ℚ)
    (h : st.target_text.length ≤ st.input.length) :
    (checkCompletion st now).mode = AppMode.Results ∧
    (checkCompletion st now).end_time = some now ∧
    (checkCompletion st now).history.length = st.history.length + 1 ∧
    (∀ s, st.start_time = some s →
      (1 ≤ durSince now s → ∃ wv,
        (checkCompletion st now).wpm_history = st.wpm_history ++ [(durSince now s, wv)]) ∧
      (durSince now s < 1 → (checkCompletion st now).wpm_history = st.wpm_history)) ∧
    (st.start_time = none → (checkCompletion st now).wpm_history = st.wpm_history) := by
  unfold checkCompletion saveResult
  rcases htm : st.test_mode with n | n <;>
    rcases hst : st.start_time with _ | s0 <;>
    simp only [htm] <;> rw [if_pos h] <;> simp only [hst]
  · simp [hst]
  · split_ifs with h1
    · refine ⟨by simp, by simp, by simp, ?_, by simp⟩
      intro s hs
      obtain rfl : s0 = s := Option.some.inj hs
      exact ⟨fun _ => ⟨_, rfl⟩, fun h2 => absurd h1 (not_le.mpr h2)⟩
    · refine ⟨by simp, by simp, by simp, ?_, by simp⟩
      intro s hs
      obtain rfl : s0 = s := Option.some.inj hs
      exact ⟨fun hc => absurd hc h1, fun _ => by simp⟩
  · simp [hst]
  · split_ifs with h1
    · refine ⟨by simp, by simp, by simp, ?_, by simp⟩
      intro s hs
      obtain rfl : s0 = s := Option.some.inj hs
      exact ⟨fun _ => ⟨_, rfl⟩, fun h2 => absurd h1 (not_le.mpr h2)⟩
    · refine ⟨by simp, by simp, by simp, ?_, by simp⟩
      intro s hs
      obtain rfl : s0 = s := Option.some.inj hs
      exact ⟨fun hc => absurd hc h1, fun _ => by simp⟩

/-- Field bookkeeping of the character mutation step. -/
theorem charStep_fields (st : App) (c : Char) (now : ℚ) :
    (charStep st c now).mode = st.mode ∧
    (charStep st c now).input = st.input ++ [c] ∧
    (charStep st c now).target_text = st.target_text ∧
    (charStep st c now).wpm_history = st.wpm_history ∧
    (charStep st c now).history = st.history ∧
    (charStep st c now).end_time = st.end_time ∧
    (∀ s, st.start_time = some s → (charStep st c now).start_time = some s) ∧
    (st.start_time = none → (charStep st c now).start_time = some now) := by
  unfold charStep
  rcases hs : st.start_time with _ | s0 <;>
    rcases ht : st.target_text[st.cursor_position]? with _ | tc
  · simp [hs, ht]
  · rcases Decidable.em (c = tc) with hc | hc <;> simp [hs, ht, hc]
  · simp [hs, ht]
  · rcases Decidable.em (c = tc) with hc | hc <;> simp [hs, ht, hc]

/-- The completion check after one appended character, described from
the pre-keystroke state. -/
theorem checkCompletion_after_append (st stm : App) (c : Char) (now : ℚ)
    (hmode : stm.mode = st.mode)
    (hinp : stm.input = st.input ++ [c])
    (htgt : stm.target_text = st.target_text)
    (hwh : stm.wpm_history = st.wpm_history)
    (hhist : stm.history = st.history)
    (het : stm.end_time = st.end_time)
    (hsome : ∀ s, st.start_time = some s → stm.start_time = some s)
    (hnone : st.start_time = none → stm.start_time = some now)
    (hmty : st.mode = AppMode.Typing) :
    ((checkCompletion stm now).mode = AppMode.Results ↔
      st.target_text.length ≤ st.input.length + 1) ∧
    (st.target_text.length ≤ st.input.length + 1 →
      (checkCompletion stm now).end_time = some now ∧
      (checkCompletion stm now).history.length = st.history.length + 1 ∧
      (∀ s, st.start_time = some s →
        (1 ≤ durSince now s → ∃ wv,
          (checkCompletion stm now).wpm_history = st.wpm_history ++ [(durSince now s, wv)]) ∧
        (durSince now s < 1 → (checkCompletion stm now).wpm_history = st.wpm_history)) ∧
      (st.start_time = none → (checkCompletion stm now).wpm_history = st.wpm_history)) ∧
    (st.input.length + 1 < st.target_text.length →
      (checkCompletion stm now).mode = AppMode.Typing ∧
      (checkCompletion stm now).end_time = st.end_time ∧
      (checkCompletion stm now).history = st.history ∧
      (checkCompletion stm now).wpm_history = st.wpm_history) := by
  have hlen : stm.input.length = st.input.length + 1 := by rw [hinp]; simp
  by_cases hdone : st.target_text.length ≤ st.input.length + 1
  · obtain ⟨h1, h2, h3, h4, h5⟩ :=
      checkCompletion_done stm now (by rw [htgt, hlen]; exact hdone)
    refine ⟨iff_of_true h1 hdone, fun _ => ⟨h2, by rw [h3, hhist], ?_, ?_⟩,
      fun hlt => absurd hdone (by omega)⟩
    · intro s hs
      obtain ⟨ha, hb⟩ := h4 s (hsome s hs)
      exact ⟨fun he => (ha he).imp fun wv hw => by rw [hw, hwh],
        fun he => (hb he).trans hwh⟩
    · intro hn
      obtain ⟨ha, hb⟩ := h4 now (hnone hn)
      have h0 : durSince now now < 1 := by
        unfold durSince
        simp
      exact (hb h0).trans hwh
  · rw [checkCompletion_not_done stm now (by rw [htgt, hlen]; omega)]
    refine ⟨?_, fun hc => absurd hc hdone,
      fun _ => ⟨hmode.trans hmty, het, hhist, hwh⟩⟩
    rw [hmode, hmty]
    exact iff_of_false (by simp) hdone

/-- C3: in Typing mode a character keystroke moves the session to
Results exactly when the appended input reaches the target length,
whatever the test mode; on detection `end_time` is set to the event
time, one Finished-result is appended to the history, and a final WPM
sample lands in `wpm_history` iff at least one second has elapsed. -/
theorem completion_on_char (st : App) (c : Char) (now : ℚ)
    (ws : List (List Char)) (hm : st.mode = AppMode.Typing) :
    ((handleKeyEvent st (.Char c) now ws).mode = AppMode.Results ↔
      st.target_text.length ≤ st.input.length + 1) ∧
    (st.target_text.length ≤ st.input.length + 1 →
      (handleKeyEvent st (.Char c) now ws).end_time = some now ∧
      (handleKeyEvent st (.Char c) now ws).history.length = st.history.length + 1 ∧
      (∀ s, st.start_time = some s →
        (1 ≤ durSince now s → ∃ wv,
          (handleKeyEvent st (.Char c) now ws).wpm_history
            = st.wpm_history ++ [(durSince now s, wv)]) ∧
        (durSince now s < 1 →
          (handleKeyEvent st (.Char c) now ws).wpm_history = st.wpm_history)) ∧
      (st.start_time = none →
        (handleKeyEvent st (.Char c) now ws).wpm_history = st.wpm_history)) ∧
    (st.input.length + 1 < st.target_text.length →
      (handleKeyEvent st (.Char c) now ws).mode = AppMode.Typing ∧
      (handleKeyEvent st (.Char c) now ws).end_time = st.end_time ∧
      (handleKeyEvent st (.Char c) now ws).history = st.history ∧
      (handleKeyEvent st (.Char c) now ws).wpm_history = st.wpm_history) := by
  rw [handleKeyEvent_typing_char st c now ws hm]
  unfold handleChar
  obtain ⟨h1, h2, h3, h4, h5, h6, h7, h8⟩ := charStep_fields st c now
  exact checkCompletion_after_append st (charStep st c now) c now h1 h2 h3 h4 h5 h6 h7 h8 hm

/-- Witness for `completion_on_char`: typing the final character of the
target "ab" after 70 seconds finishes the session. -/
def stCompletion : App :=
  { App.default with
    mode := .Typing
    target_text := "ab".toList
    input := "a".toList
    cursor_position := 1
    start_time := some 0 }

/-- Witness for `completion_on_char` at `stCompletion`. -/
theorem completion_on_char_witness :
    ((handleKeyEvent stCompletion (.Char 'b') 70 []).mode = AppMode.Results ↔
      stCompletion.target_text.length ≤ stCompletion.input.length + 1) ∧
    (handleKeyEvent stCompletion (.Char 'b') 70 []).end_time = some 70 ∧
    (handleKeyEvent stCompletion (.Char 'b') 70 []).history.length
      = stCompletion.history.length + 1 :=
  ⟨(completion_on_char stCompletion 'b' 70 [] rfl).1,
   ((completion_on_char stCompletion 'b' 70 [] rfl).2.1 (by decide)).1,
   ((completion_on_char stCompletion 'b' 70 [] rfl).2.1 (by decide)).2.1⟩

/-- Claim-side error count per bin: the number of error points whose
time falls in bin `i`. -/
def binCount (errorPoints : List (ℚ × ℚ)) (i : ℕ) : ℕ :=
  (errorPoints.filter fun p => binIndexOf p.1 == i).length

/-- One loop step keeps the number of bins. -/
theorem binStep_length (numBins : ℕ) (bins : List ℕ) (p : ℚ × ℚ) :
    (binStep numBins bins p).length = bins.length := by
  unfold binStep
  split_ifs <;> simp

/-- The whole loop keeps the number of bins. -/
theorem foldl_binStep_length (numBins : ℕ) (errs : List (ℚ × ℚ)) :
    ∀ acc : List ℕ, (errs.foldl (binStep numBins) acc).length = acc.length := by
  induction errs with
  | nil => intro acc; rfl
  | cons p t ih =>
    intro acc
    rw [List.foldl_cons, ih, binStep_length]

/-- The loop adds to bin `i` exactly the number of error points whose
bin index is `i`, for every in-range `i`. -/
theorem foldl_binStep_getD (numBins i : ℕ) (hi : i < numBins)
    (errs : List (ℚ × ℚ)) :
    ∀ acc : List ℕ, acc.length = numBins →
      (errs.foldl (binStep numBins) acc).getD i 0 = acc.getD i 0 + binCount errs i := by
  induction errs with
  | nil =>
    intro acc _
    simp [binCount]
  | cons p t ih =>
    intro acc hacc
    rw [List.foldl_cons, ih _ (by rw [binStep_length]; exact hacc)]
    unfold binStep binCount
    by_cases heq : binIndexOf p.1 = i
    · rw [heq]
      rw [if_pos hi]
      have hgd : (acc.set i (acc.getD i 0 + 1)).getD i 0 = acc.getD i 0 + 1 := by
        have : i < acc.length := by omega
        simp [List.getD_eq_getElem?_getD, List.getElem?_set, this]
      rw [hgd]
      have hfc : List.filter (fun p => binIndexOf p.1 == i) (p :: t)
          = p :: List.filter (fun p => binIndexOf p.1 == i) t := by
        simp [List.filter_cons, heq]
      rw [hfc]
      simp [binCount]
      omega
    · have hfc : List.filter (fun p => binIndexOf p.1 == i) (p :: t)
          = List.filter (fun p => binIndexOf p.1 == i) t := by
        simp [List.filter_cons, heq]
      split_ifs with hidx
      · have hgd : (acc.set (binIndexOf p.1) (acc.getD (binIndexOf p.1) 0 + 1)).getD i 0
            = acc.getD i 0 := by
          simp [List.getD_eq_getElem?_getD, List.getElem?_set, heq]
        rw [hgd, hfc]
      · rw [hfc]

/-- The bins produced by the loop hold exactly the per-bin counts. -/
theorem buildBins_getD (numBins : ℕ) (errs : List (ℚ × ℚ)) (i : ℕ)
    (hi : i < numBins) :
    (buildBins numBins errs).getD i 0 = binCount errs i := by
  unfold buildBins
  rw [foldl_binStep_getD numBins i hi errs _ (List.length_replicate _ _)]
  simp [List.getD_eq_getElem?_getD, List.getElem?_replicate, hi]

/-- The bin list has `numBins` entries. -/
theorem buildBins_length (numBins : ℕ) (errs : List (ℚ × ℚ)) :
    (buildBins numBins errs).length = numBins := by
  unfold buildBins
  rw [foldl_binStep_length, List.length_replicate]

/-- `foldl max` dominates the start value and every element. -/
theorem le_foldl_max (l : List ℕ) :
    ∀ a : ℕ, a ≤ l.foldl max a ∧ ∀ x ∈ l, x ≤ l.foldl max a := by
  induction l with
  | nil => intro a; simp
  | cons b t ih =>
    intro a
    rw [List.foldl_cons]
    refine ⟨le_trans (le_max_left a b) (ih (max a b)).1, ?_⟩
    intro x hx
    rcases List.mem_cons.mp hx with rfl | hx
    · exact le_trans (le_max_right a x) (ih (max a x)).1
    · exact (ih (max a b)).2 x hx

/-- Every in-range bin count is at most the loop's running maximum. -/
theorem binCount_le_maxErrorCount (numBins : ℕ) (errs : List (ℚ × ℚ))
    (i : ℕ) (hi : i < numBins) :
    binCount errs i ≤ maxErrorCount (buildBins numBins errs) := by
  have hlen : i < (buildBins numBins errs).length := by
    rw [buildBins_length]
    exact hi
  have hmem : (buildBins numBins errs).getD i 0 ∈ buildBins numBins errs := by
    rw [List.getD_eq_getElem _ _ hlen]
    exact List.getElem_mem _
  have := (le_foldl_max (buildBins numBins errs) 0).2 _ hmem
  rw [buildBins_getD numBins errs i hi] at this
  exact this

/-- C9: every emitted error-density entry comes from an in-range bin
with a positive error count, placed at the bin's start time and
normalized by `(count / max bin count) × max WPM`; and conversely every
non-empty in-range bin is emitted.  In particular no entry is ever
emitted for a bin with zero errors. -/
theorem error_density_bins (wpmData rawWpmData errorPoints : List (ℚ × ℚ)) :
    (∀ q ∈ errorData wpmData rawWpmData errorPoints,
      ∃ i : ℕ, i < numBinsOf rawWpmData ∧ 0 < binCount errorPoints i ∧
        q = ((i : ℚ) * binSize,
          ((binCount errorPoints i : ℚ) /
            (maxErrorCount (buildBins (numBinsOf rawWpmData) errorPoints) : ℚ)) *
          maxWpmOf wpmData)) ∧
    (∀ i : ℕ, i < numBinsOf rawWpmData → 0 < binCount errorPoints i →
      ((i : ℚ) * binSize,
        ((binCount errorPoints i : ℚ) /
          (maxErrorCount (buildBins (numBinsOf rawWpmData) errorPoints) : ℚ)) *
        maxWpmOf wpmData) ∈ errorData wpmData rawWpmData errorPoints) := by
  constructor
  · intro q hq
    unfold errorData at hq
    rw [List.mem_map] at hq
    obtain ⟨⟨i, cnt⟩, hpf, rfl⟩ := hq
    rw [List.mem_filter] at hpf
    obtain ⟨hpe, hppos⟩ := hpf
    rw [List.mk_mem_enum_iff_getElem?] at hpe
    have hilen : i < (buildBins (numBinsOf rawWpmData) errorPoints).length :=
      (List.getElem?_eq_some.mp hpe).1
    have hibound : i < numBinsOf rawWpmData := by
      rwa [buildBins_length] at hilen
    have hcnt : cnt = binCount errorPoints i := by
      have := buildBins_getD (numBinsOf rawWpmData) errorPoints i hibound
      rw [List.getD_eq_getElem?_getD, hpe] at this
      simpa using this
    have hpos : 0 < cnt := by simpa using hppos
    have hmaxpos :
        (0 : ℚ) < (maxErrorCount (buildBins (numBinsOf rawWpmData) errorPoints) : ℚ) := by
      have h1 : cnt ≤ maxErrorCount (buildBins (numBinsOf rawWpmData) errorPoints) := by
        rw [hcnt]
        exact binCount_le_maxErrorCount _ _ _ hibound
      exact_mod_cast lt_of_lt_of_le hpos h1
    refine ⟨i, hibound, by rw [← hcnt]; exact hpos, ?_⟩
    simp only [if_pos hmaxpos, hcnt]
  · intro i hi hpos
    unfold errorData
    rw [List.mem_map]
    refine ⟨(i, binCount errorPoints i), ?_, ?_⟩
    · rw [List.mem_filter]
      constructor
      · rw [List.mk_mem_enum_iff_getElem?]
        have hilen : i < (buildBins (numBinsOf rawWpmData) errorPoints).length := by
          rw [buildBins_length]
          exact hi
        rw [List.getElem?_eq_getElem hilen]
        have := buildBins_getD (numBinsOf rawWpmData) errorPoints i hi
        rw [List.getD_eq_getElem _ _ hilen] at this
        rw [this]
      · simpa using hpos
    · have hmaxpos :
          (0 : ℚ) < (maxErrorCount (buildBins (numBinsOf rawWpmData) errorPoints) : ℚ) := by
        have h1 := binCount_le_maxErrorCount (numBinsOf rawWpmData) errorPoints i hi
        exact_mod_cast lt_of_lt_of_le hpos h1
      simp only [if_pos hmaxpos]

/-- Witness for `error_density_bins`: one error at time 0 with samples
up to time 2 produces the single normalized entry `(0, 20)`. -/
theorem error_density_bins_witness :
    ∃ i : ℕ, i < numBinsOf [((0 : ℚ), (10 : ℚ)), ((2 : ℚ), (20 : ℚ))] ∧
      0 < binCount [((0 : ℚ), (5 : ℚ))] i ∧
      (((0 : ℚ), (20 : ℚ)) : ℚ × ℚ) = ((i : ℚ) * binSize,
        ((binCount [((0 : ℚ), (5 : ℚ))] i : ℚ) /
          (maxErrorCount (buildBins
            (numBinsOf [((0 : ℚ), (10 : ℚ)), ((2 : ℚ), (20 : ℚ))])
            [((0 : ℚ), (5 : ℚ))]) : ℚ)) *
        maxWpmOf [((0 : ℚ), (10 : ℚ)), ((2 : ℚ), (20 : ℚ))]) := by
  have hnb : numBinsOf [((0 : ℚ), (10 : ℚ)), ((2 : ℚ), (20 : ℚ))] = 3 := by
    norm_num [numBinsOf, maxTimeOf, binSize]
    have hc : ⌈(4 : ℚ) / 3⌉ = 2 := by norm_num [Int.ceil_eq_iff]
    rw [hc]
    rfl
  have hbi : binIndexOf (0 : ℚ) = 0 := by norm_num [binIndexOf, binSize]
  have hbb : buildBins 3 [((0 : ℚ), (5 : ℚ))] = [1, 0, 0] := by
    unfold buildBins
    rw [List.foldl_cons, List.foldl_nil]
    unfold binStep
    rw [hbi]
    decide
  have hfl : (([1, 0, 0] : List ℕ).enum.filter fun p => 0 < p.2) = [(0, 1)] := by
    decide
  have hmw : maxWpmOf [((0 : ℚ), (10 : ℚ)), ((2 : ℚ), (20 : ℚ))] = 20 := by
    norm_num [maxWpmOf]
  have hED : errorData [((0 : ℚ), (10 : ℚ)), ((2 : ℚ), (20 : ℚ))]
      [((0 : ℚ), (10 : ℚ)), ((2 : ℚ), (20 : ℚ))] [((0 : ℚ), (5 : ℚ))]
      = [((0 : ℚ), (20 : ℚ))] := by
    unfold errorData
    rw [hnb, hbb, hfl, hmw]
    norm_num [maxErrorCount, binSize]
  exact (error_density_bins
    [((0 : ℚ), (10 : ℚ)), ((2 : ℚ), (20 : ℚ))]
    [((0 : ℚ), (10 : ℚ)), ((2 : ℚ), (20 : ℚ))]
    [((0 : ℚ), (5 : ℚ))]).1 ((0 : ℚ), (20 : ℚ))
    (by rw [hED]; exact List.mem_singleton.mpr rfl)

/-! ### Reachability and the timer/counter invariant -/

/-- The spec's invariant restricted to Typing mode: no timer implies no
recorded strokes. -/
def TypingCountersInv (st : App) : Prop :=
  st.mode = AppMode.Typing → st.start_time = none →
    st.total_correct_strokes = 0 ∧ st.total_incorrect_strokes = 0

/-- A character keystroke always leaves the timer running. -/
theorem handleChar_start_ne_none (st : App) (c : Char) (now : ℚ) :
    (handleChar st c now).start_time ≠ none := by
  unfold handleChar
  rw [(checkCompletion_frame (charStep st c now) now).2.2.2.2.2.1]
  obtain ⟨-, -, -, -, -, -, h7, h8⟩ := charStep_fields st c now
  rcases hs : st.start_time with _ | s0
  · rw [h8 hs]
    simp
  · rw [h7 s0 hs]
    simp

/-- Every key event preserves the Typing-mode counter invariant. -/
theorem handleKeyEvent_preserves_inv (st : App) (k : KeyCode) (now : ℚ)
    (ws : List (List Char)) (h : TypingCountersInv st) :
    TypingCountersInv (handleKeyEvent st k now ws) := by
  unfold TypingCountersInv at h ⊢
  unfold handleKeyEvent
  rcases hm : st.mode <;> simp only [hm] <;> rcases k with c | _ | _ | _ | _ | _ | _ <;>
    try dsimp only
  all_goals first
    | exact h
    | (intro hty hst
       exact absurd hst (handleChar_start_ne_none st c now))
    | (intro hty hst
       obtain ⟨f1, f2, f3, f4, f5, f6, f7, f8, f9, f10⟩ := handleBackspace_frame st
       rw [f5, f6]
       rw [f3] at hst
       exact h hm hst)
    | (split_ifs <;> intro hty hst <;>
        first
        | simp [hm] at hty
        | simp [startTyping])
    | (intro hty hst
       simp [startTyping])
    | (intro hty hst
       simp [hm] at hty)

/-- A timer tick never changes the timer start or the stroke counters,
and can only move the mode to Results. -/
theorem tick_frame (st : App) (now : ℚ) :
    (tick st now).start_time = st.start_time ∧
    (tick st now).total_correct_strokes = st.total_correct_strokes ∧
    (tick st now).total_incorrect_strokes = st.total_incorrect_strokes ∧
    ((tick st now).mode = st.mode ∨ (tick st now).mode = AppMode.Results) := by
  unfold tick saveResult
  split_ifs with hmo
  · rcases hst : st.start_time with _ | s0 <;>
      rcases htm : st.test_mode with n | d <;>
      rcases hls : st.last_wpm_sample with _ | ls <;>
      simp only [hst, htm, hls] <;>
      (repeat' (first | split_ifs | simp [hst, htm]))
  · simp

/-- A timer tick preserves the Typing-mode counter invariant. -/
theorem tick_preserves_inv (st : App) (now : ℚ) (h : TypingCountersInv st) :
    TypingCountersInv (tick st now) := by
  intro hty hst
  obtain ⟨h1, h2, h3, h4⟩ := tick_frame st now
  rcases h4 with hmo | hmo
  · rw [h2, h3]
    rw [h1] at hst
    exact h (hmo.symm.trans hty) hst
  · rw [hty] at hmo
    cases hmo

/-- The Typing-mode counter invariant holds in every reachable state. -/
theorem reachable_inv (loaded : List TestResult) (st : App)
    (h : Reachable loaded st) : TypingCountersInv st := by
  unfold Reachable at h
  induction h with
  | refl => intro _ _; exact ⟨rfl, rfl⟩
  | tail hab hbc ih =>
    cases hbc with
    | key k now ws => exact handleKeyEvent_preserves_inv _ k now ws ih
    | tick now => exact tick_preserves_inv _ now ih

/-- Enter on the welcome screen with generated words "ab", one wrong
character, then Esc (cancel): the cancel clears `start_time` but leaves
the stroke counters. -/
def cancelCexState : App :=
  handleKeyEvent
    (handleKeyEvent (handleKeyEvent (initApp []) .Enter 0 [['a', 'b']])
      (.Char 'x') 0 [])
    .Esc 0 []

/-- C2 counterexample: the claimed invariant
`start_time.is_none() ⇒ both counters are 0` fails in a reachable state,
namely the Welcome state reached by cancelling a session that already
recorded a keystroke (src/app.rs lines 227-230 reset only
`start_time`). -/
theorem cancel_breaks_counter_invariant :
    ¬ (∀ (loaded : List TestResult) (st : App), Reachable loaded st →
        st.start_time = none →
        st.total_correct_strokes = 0 ∧ st.total_incorrect_strokes = 0) := by
  intro hall
  have hreach : Reachable [] cancelCexState :=
    Relation.ReflTransGen.tail
      (Relation.ReflTransGen.tail
        (Relation.ReflTransGen.tail Relation.ReflTransGen.refl
          (Step.key _ .Enter 0 [['a', 'b']]))
        (Step.key _ (.Char 'x') 0 []))
      (Step.key _ .Esc 0 [])
  have hnone : cancelCexState.start_time = none := rfl
  have hone : cancelCexState.total_incorrect_strokes = 1 := rfl
  obtain ⟨-, h2⟩ := hall [] cancelCexState hreach hnone
  rw [hone] at h2
  exact one_ne_zero h2

/-- C2 amended: in every reachable state the invariant holds whenever
the mode is Typing; cancelling leaves Welcome-mode counters stale until
the next session start, so the Typing restriction is necessary. -/
theorem typing_counters_invariant (loaded : List TestResult) (st : App)
    (h : Reachable loaded st) (hm : st.mode = AppMode.Typing)
    (hs : st.start_time = none) :
    st.total_correct_strokes = 0 ∧ st.total_incorrect_strokes = 0 :=
  reachable_inv loaded st h hm hs

/-- A freshly started Typing session reachable from startup. -/
def typingFreshState : App := handleKeyEvent (initApp []) .Enter 0 [['a', 'b']]

/-- Witness for `typing_counters_invariant` at the freshly started
session (timer not yet running). -/
theorem typing_counters_invariant_witness :
    typingFreshState.total_correct_strokes = 0 ∧
    typingFreshState.total_incorrect_strokes = 0 :=
  typing_counters_invariant [] typingFreshState
    (Relation.ReflTransGen.tail Relation.ReflTransGen.refl
      (Step.key _ .Enter 0 [['a', 'b']]))
    rfl rfl

end Typestorm
